import Mathlib

/-!
Verification of the SeedGPT autonomous software-change agent.

This file gives a shallow embedding of the parts of the implementation that
the checked properties speak about, and proves (or refutes) each property:

* `SeedGPT.Memory` — the memory service (`src/agents/memory.ts`): memory
  items, store/unpin/idea operations, and the budgeted `getContext` string
  assembly.
* `SeedGPT.Git` — the source-control adapter's `applyEdits` (`tools/git.ts`):
  single-match textual replace, create, delete over a modelled file system.
* `SeedGPT.Loop` — the iteration controller's fix-loop and merge gating
  (`src/loop.ts`), as an event-trace semantics over oracle inputs.
* `SeedGPT.Gen` — the per-exchange cost function of the `Generated` model.
* `SeedGPT.Api` — the LLM gateway's request parameter construction
  (`src/llm/api.ts`): thinking budgets and signature stripping.
* `SeedGPT.Rx` — the regex-escaping of `recall`'s fallback search.

Strings from the implementation are modelled either as Lean `String`s
(memory context assembly) or as `List Char` (text search and splicing),
with JavaScript's UTF-16 length approximated by the codepoint count
(identical on the ASCII data all fixed strings here use).
-/

namespace SeedGPT

/-- JavaScript `Array.prototype.join('\n')`: intercalate a newline. -/
def joinNl : List String → String
  | [] => ""
  | [s] => s
  | s :: rest => s ++ "\n" ++ joinNl rest

/-- `Array.prototype.join('\n\n')`, used for the memory-context sections. -/
def joinBlank : List String → String
  | [] => ""
  | [s] => s
  | s :: rest => s ++ "\n\n" ++ joinBlank rest

namespace Memory

/-- The `ideaStatus` enumeration of the `Memory` Mongo schema. -/
inductive IdeaStatus
  | pending
  | attempted
  | completed
deriving DecidableEq, Repr

/-- The argument type of `updateIdeaStatus` (`'attempted' | 'completed'`). -/
inductive UpdStatus
  | attempted
  | completed
deriving DecidableEq, Repr

def UpdStatus.toIdeaStatus : UpdStatus → IdeaStatus
  | .attempted => .attempted
  | .completed => .completed

/-- A document of the `Memory` collection (`src/models/Memory` schema as used
by `src/agents/memory.ts`).  `createdAt`/`updatedAt` are epoch milliseconds. -/
structure MemoryItem where
  _id : String
  content : String
  summary : String
  pinned : Bool
  ideaStatus : Option IdeaStatus
  ideaContext : Option String
  createdAt : Nat
  updatedAt : Nat
deriving DecidableEq, Repr

/-- The memory store: the `Memory` collection in insertion order. -/
abbrev Store := List MemoryItem

/-- `storePastMemory`: persist an unpinned, non-idea memory (the summary is
produced by the LLM memory phase, taken here as a parameter). -/
def storePastMemory (store : Store) (id content summary : String) (now : Nat) : Store :=
  store ++ [{ _id := id, content := content, summary := summary, pinned := false,
              ideaStatus := none, ideaContext := none, createdAt := now, updatedAt := now }]

/-- `storePinnedMemory`: persist a pinned note. -/
def storePinnedMemory (store : Store) (id content summary : String) (now : Nat) : Store :=
  store ++ [{ _id := id, content := content, summary := summary, pinned := true,
              ideaStatus := none, ideaContext := none, createdAt := now, updatedAt := now }]

/-- `storeIdea`: persist a pinned idea with `ideaStatus = 'pending'`. -/
def storeIdea (store : Store) (id description summary context : String) (now : Nat) : Store :=
  store ++ [{ _id := id, content := description, summary := summary, pinned := true,
              ideaStatus := some .pending, ideaContext := some context,
              createdAt := now, updatedAt := now }]

/-- `unpinMemory`: `findById`; no-op unless the document exists and is pinned,
otherwise clear `pinned` and save.  (Ids are unique in Mongo, so the by-id
update is modelled as a map over the collection.) -/
def unpinMemory (store : Store) (id : String) : Store :=
  store.map fun m => if m._id = id ∧ m.pinned then { m with pinned := false } else m

/-- `updateIdeaStatus`: `findById`; no-op unless the document exists and has a
non-empty `ideaStatus`; otherwise set the status, and when the new status is
`completed` also clear `pinned`, then save. -/
def updateIdeaStatus (store : Store) (id : String) (status : UpdStatus) : Store :=
  store.map fun m =>
    if m._id = id ∧ m.ideaStatus.isSome then
      { m with ideaStatus := some status.toIdeaStatus,
               pinned := if status = .completed then false else m.pinned }
    else m

/-- `estimateTokens`: `Math.ceil(text.length / 4)`. -/
def estimateTokens (text : String) : Nat :=
  (text.length + 3) / 4

/-- Insert into a list already sorted by `createdAt` descending. -/
def insertDesc (m : MemoryItem) : List MemoryItem → List MemoryItem
  | [] => [m]
  | x :: xs => if x.createdAt < m.createdAt then m :: x :: xs else x :: insertDesc m xs

/-- `.sort({ createdAt: -1 })`: newest first. -/
def sortDesc (l : List MemoryItem) : List MemoryItem :=
  l.foldr insertDesc []

/-- Zero-pad a number to two digits (`toISOString` date components). -/
def pad2 (n : Nat) : String :=
  if n < 10 then "0" ++ toString n else toString n

/-- Zero-pad a year to four digits. -/
def pad4 (n : Nat) : String :=
  if n < 10 then "000" ++ toString n
  else if n < 100 then "00" ++ toString n
  else if n < 1000 then "0" ++ toString n
  else toString n

/-- Civil date from days since 1970-01-01 (proleptic Gregorian). -/
def civilFromDays (z : Nat) : Nat × Nat × Nat :=
  let zs := z + 719468
  let era := zs / 146097
  let doe := zs % 146097
  let yoe := (doe - doe / 1460 + doe / 36524 - doe / 146096) / 365
  let y := yoe + era * 400
  let doy := doe - (365 * yoe + yoe / 4 - yoe / 100)
  let mp := (5 * doy + 2) / 153
  let d := doy - (153 * mp + 2) / 5 + 1
  let m := if mp < 10 then mp + 3 else mp - 9
  (if m ≤ 2 then y + 1 else y, m, d)

/-- `new Date(ms).toISOString().slice(0, 19).replace('T', ' ')`:
`YYYY-MM-DD HH:MM:SS` for epoch-millisecond timestamps. -/
def formatDate (ms : Nat) : String :=
  let secs := ms / 1000
  let days := secs / 86400
  let tod := secs % 86400
  let ymd := civilFromDays days
  pad4 ymd.1 ++ "-" ++ pad2 ymd.2.1 ++ "-" ++ pad2 ymd.2.2 ++ " " ++
    pad2 (tod / 3600) ++ ":" ++ pad2 (tod % 3600 / 60) ++ ":" ++ pad2 (tod % 60)

/-- The pinned memories, newest first (`find({pinned: true}).sort({createdAt: -1})`). -/
def pinnedSorted (store : Store) : List MemoryItem :=
  sortDesc (store.filter (·.pinned))

/-- Pinned items without an `ideaStatus` (the `## Notes to self` items). -/
def notesItems (store : Store) : List MemoryItem :=
  (pinnedSorted store).filter (fun m => m.ideaStatus.isNone)

/-- Pinned items with an `ideaStatus` (the `## Ideas` items). -/
def ideasItems (store : Store) : List MemoryItem :=
  (pinnedSorted store).filter (fun m => m.ideaStatus.isSome)

/-- A `## Notes to self` line: `- ({id}) {summary}`. -/
def noteLine (m : MemoryItem) : String :=
  "- (" ++ m._id ++ ") " ++ m.summary

/-- An `## Ideas` line: `- [PENDING]|[ATTEMPTED] ({id}) {summary}[ — {ideaContext}]`.
JavaScript's truthiness test on `ideaContext` treats the empty string like
a missing value. -/
def ideaLine (m : MemoryItem) : String :=
  let statusBadge := if m.ideaStatus = some .pending then "[PENDING]" else "[ATTEMPTED]"
  let context := match m.ideaContext with
    | some c => if c = "" then "" else " — " ++ c
    | none => ""
  "- " ++ statusBadge ++ " (" ++ m._id ++ ") " ++ m.summary ++ context

/-- A `## Past` line: `- ({id}) [{date}] {summary}`. -/
def pastLine (m : MemoryItem) : String :=
  "- (" ++ m._id ++ ") [" ++ formatDate m.createdAt ++ "] " ++ m.summary

/-- The fully rendered `## Notes to self` section. -/
def notesSection (store : Store) : String :=
  "## Notes to self\n" ++ joinNl ((notesItems store).map noteLine)

/-- The fully rendered `## Ideas` section. -/
def ideasSection (store : Store) : String :=
  "## Ideas\n" ++ joinNl ((ideasItems store).map ideaLine)

/-- The `## Past` header (its token estimate seeds the past-loop counter). -/
def pastHeader : String := "## Past\n"

/-- Unpinned non-idea memories, newest first
(`find({pinned: false, ideaStatus: {$exists: false}}).sort({createdAt: -1})`). -/
def pastCandidates (store : Store) : List MemoryItem :=
  sortDesc (store.filter (fun m => !m.pinned && m.ideaStatus.isNone))

/-- The `for (const m of recent)` loop of `getContext`: add past lines one at
a time, breaking as soon as the next line would exceed the budget. -/
def pastLoop (budget tokensUsed : Nat) :
    List MemoryItem → Nat → List String → Nat × List String
  | [], pastTokens, lines => (pastTokens, lines)
  | m :: rest, pastTokens, lines =>
    let line := pastLine m
    let lineTokens := estimateTokens (line ++ "\n")
    if budget < tokensUsed + pastTokens + lineTokens then (pastTokens, lines)
    else pastLoop budget tokensUsed rest (pastTokens + lineTokens) (lines ++ [line])

/-- Tokens used after the notes section (`tokensUsed` after the first `if`). -/
def usedAfterNotes (store : Store) : Nat :=
  if notesItems store = [] then 0 else estimateTokens (notesSection store)

/-- Whether the `## Ideas` section is included: it exists and fits the budget. -/
def ideasIncluded (store : Store) (budget : Nat) : Prop :=
  ideasItems store ≠ [] ∧ usedAfterNotes store + estimateTokens (ideasSection store) ≤ budget

instance (store : Store) (budget : Nat) : Decidable (ideasIncluded store budget) := by
  unfold ideasIncluded; infer_instance

/-- Tokens used after the ideas section (`tokensUsed` after the second `if`). -/
def usedAfterIdeas (store : Store) (budget : Nat) : Nat :=
  if ideasIncluded store budget then
    usedAfterNotes store + estimateTokens (ideasSection store)
  else usedAfterNotes store

/-- The accepted `## Past` lines (empty when `remaining ≤ 0` skips the query). -/
def pastLines (store : Store) (budget : Nat) : List String :=
  if usedAfterIdeas store budget < budget then
    (pastLoop budget (usedAfterIdeas store budget) (pastCandidates store)
      (estimateTokens pastHeader) []).2
  else []

/-- The `sections` array assembled by `getContext`, in order. -/
def getContextSections (store : Store) (budget : Nat) : List String :=
  (if notesItems store = [] then [] else [notesSection store]) ++
  (if ideasIncluded store budget then [ideasSection store] else []) ++
  (if pastLines store budget = [] then []
   else [pastHeader ++ joinNl (pastLines store budget)])

/-- The first-run fallback returned when no section is produced. -/
def noMemoriesMessage : String := "No memories yet. This is your first run."

/-- `getContext()`: the budgeted memory context string
(`config.memoryTokenBudget` is passed explicitly). -/
def getContext (store : Store) (budget : Nat) : String :=
  let sections := getContextSections store budget
  if sections = [] then noMemoriesMessage else joinBlank sections

/-- The token estimate of the longest pinned block (the larger of the rendered
`## Notes to self` and `## Ideas` sections; 0 when there is none). -/
def longestPinnedBlockEst (store : Store) : Nat :=
  max (if notesItems store = [] then 0 else estimateTokens (notesSection store))
      (if ideasItems store = [] then 0 else estimateTokens (ideasSection store))

/-- Token estimates accumulated by the past loop: header plus one `line ++ "\n"`
estimate per accepted line. -/
def sumTok (lines : List String) : Nat :=
  (lines.map (fun l => estimateTokens (l ++ "\n"))).sum

/-- The memory-service operations, as abstract events (store contents and the
summaries produced by the LLM memory phase are parameters). -/
inductive MemOp
  | past (id content summary : String) (now : Nat)
  | note (id content summary : String) (now : Nat)
  | idea (id description summary context : String) (now : Nat)
  | unpin (id : String)
  | updateIdea (id : String) (status : UpdStatus)
deriving DecidableEq, Repr

/-- Run one memory-service operation against the store. -/
def applyOp (store : Store) : MemOp → Store
  | .past id content summary now => storePastMemory store id content summary now
  | .note id content summary now => storePinnedMemory store id content summary now
  | .idea id d s c now => storeIdea store id d s c now
  | .unpin id => unpinMemory store id
  | .updateIdea id status => updateIdeaStatus store id status

/-- Run a sequence of memory-service operations. -/
def applyOps (store : Store) : List MemOp → Store
  | [] => store
  | op :: rest => applyOps (applyOp store op) rest

/-- Per-id invariant: while an id has seen neither `unpin` nor a completing
`updateIdeaStatus`, all its documents with a non-empty `ideaStatus` stay pinned
and none of them is completed. -/
def IdInv (id : String) (store : Store) : Prop :=
  ∀ m ∈ store, m._id = id →
    (m.ideaStatus.isSome → m.pinned = true) ∧ m.ideaStatus ≠ some .completed

end Memory

/-! ### JavaScript string-search primitives -/

namespace Js

/-- Program text, as the implementation's JavaScript strings (UTF-16 units ≈
characters on the data involved). -/
abbrev Text := List Char

/-- Whether `pat` occurs in `content` starting at index `i`. -/
def matchesAt (content pat : Text) (i : Nat) : Bool :=
  decide ((content.drop i).take pat.length = pat)

/-- First index `j` with `i ≤ j < i + k` satisfying `p`. -/
def scanFirst (p : Nat → Bool) : Nat → Nat → Option Nat
  | _, 0 => none
  | i, k + 1 => if p i then some i else scanFirst p (i + 1) k

/-- `String.prototype.indexOf(pat, start)`: the first occurrence index at or
after `start` (clamped to the length, as ECMAScript does), or `none` for -1. -/
def jsIndexOf (content pat : Text) (start : Nat) : Option Nat :=
  let pos := min start content.length
  scanFirst (fun i => matchesAt content pat i) pos (content.length + 1 - pos)

/-- The number of occurrence indices of `pat` in `content`. -/
def occCount (content pat : Text) : Nat :=
  ((List.range (content.length + 1)).filter (fun i => matchesAt content pat i)).length

/-- Case folding, modelling the regex `i` flag. -/
def lowerText (t : Text) : Text := t.map Char.toLower

/-- Substring test: some occurrence index exists. -/
def containsSub (haystack needle : Text) : Bool :=
  (List.range (haystack.length + 1)).any (fun i => matchesAt haystack needle i)

end Js

namespace Git

/-- `EditOperation` (`src/agents/build.ts` tagged union as consumed by
`applyEdits`): `replace`/`create`/`delete` with their payloads. -/
inductive EditOperation
  | replace (filePath : String) (oldString newString : Js.Text)
  | create (filePath : String) (content : Js.Text)
  | delete (filePath : String)
deriving DecidableEq, Repr

/-- The workspace file system: path to file contents. -/
abbrev FS := List (String × Js.Text)

def fsRead (fs : FS) (path : String) : Option Js.Text :=
  (fs.find? (fun e => e.1 = path)).map (·.2)

def fsWrite (fs : FS) (path : String) (content : Js.Text) : FS :=
  if (fs.find? (fun e => e.1 = path)).isSome then
    fs.map (fun e => if e.1 = path then (path, content) else e)
  else fs ++ [(path, content)]

def fsRemove (fs : FS) (path : String) : FS :=
  fs.filter (fun e => e.1 ≠ path)

/-- The runtime `ENOENT` error text raised by `readFile`/`unlink` on a missing
path (environment text, kept abstract up to the path). -/
def enoentMsg (path : String) : String :=
  "ENOENT: no such file or directory, " ++ path

/-- One step of the `for (const op of operations)` loop of `applyEdits`
(`tools/git.ts`): failures append a message and leave the tree untouched;
successes write the tree and append nothing. -/
def stepEdit (acc : FS × List String) (op : EditOperation) : FS × List String :=
  match op with
  | .replace filePath oldString newString =>
    match fsRead acc.1 filePath with
    | none => (acc.1, acc.2 ++ ["replace \"" ++ filePath ++ "\": " ++ enoentMsg filePath])
    | some content =>
      match Js.jsIndexOf content oldString 0 with
      | none =>
        (acc.1, acc.2 ++ ["replace \"" ++ filePath ++ "\": oldString not found in file"])
      | some index =>
        match Js.jsIndexOf content oldString (index + 1) with
        | some _ =>
          (acc.1, acc.2 ++ ["replace \"" ++ filePath ++
            "\": oldString matches multiple locations — add more context to make it unique"])
        | none =>
          (fsWrite acc.1 filePath
            (content.take index ++ newString ++ content.drop (index + oldString.length)),
           acc.2)
  | .create filePath content => (fsWrite acc.1 filePath content, acc.2)
  | .delete filePath =>
    if (fsRead acc.1 filePath).isSome then (fsRemove acc.1 filePath, acc.2)
    else (acc.1, acc.2 ++ ["delete \"" ++ filePath ++ "\": " ++ enoentMsg filePath])

/-- `applyEdits`: every operation is processed in order, collecting errors. -/
def applyEdits (fs : FS) (ops : List EditOperation) : FS × List String :=
  ops.foldl stepEdit (fs, [])

/-- The full call: after the loop, throw a single concatenated error exactly
when some operation failed (the mutated tree stays on disk either way). -/
def applyEditsCall (fs : FS) (ops : List EditOperation) : FS × Except String Unit :=
  let r := applyEdits fs ops
  (r.1, if r.2 = [] then .ok () else .error ("Edit operations failed:\n" ++ joinNl r.2))

end Git

namespace Loop

/-- The result of `awaitChecks()`. -/
structure CheckResult where
  passed : Bool
  error : Option String
deriving DecidableEq, Repr

/-- Oracle outcome of one `session.fixPatch(error)` call: it throws, or it
returns a list of edits. -/
inductive FixOutcome
  | fixThrew
  | fixEdits (edits : List Git.EditOperation)
deriving DecidableEq, Repr

/-- Observable actions of one controller iteration. -/
inductive LoopEvent
  | awaitedChecks (passed : Bool)
  | committedPush
  | mergedPR (pr : Nat)
  | closedPR (pr : Nat)
deriving DecidableEq, Repr

/-- The `while (true)` fix loop of `iterate` (`src/loop.ts` lines 67-97), as a
trace over the oracle streams of CI results and fixer outcomes, together with
the final `merged` flag.  `attempts`/`maxFix` model `session.exhausted`
(modelled from the spec: `PatchSession` of `src/agents/build.ts` is not among
the provided sources; per §3/§4.F `exhausted = attempts ≥ maxFixAttempts` and
`fixPatch` increments the counter).  An exhausted oracle stream ends the trace
without a merge (the source loop would keep polling). -/
def fixLoop (maxFix : Nat) : List CheckResult → List FixOutcome → Nat → List LoopEvent × Bool
  | [], _, _ => ([], false)
  | r :: crest, fixes, attempts =>
    if r.passed then ([.awaitedChecks true], true)
    else if maxFix ≤ attempts then ([.awaitedChecks false], false)
    else
      match fixes with
      | [] => ([.awaitedChecks false], false)
      | .fixThrew :: _ => ([.awaitedChecks false], false)
      | .fixEdits [] :: _ => ([.awaitedChecks false], false)
      | .fixEdits (_ :: _) :: frest =>
        let r' := fixLoop maxFix crest frest (attempts + 1)
        (.awaitedChecks false :: .committedPush :: r'.1, r'.2)

/-- The PR-handling part of one `iterate` call: empty edits mean no commit, no
PR and no merge; otherwise push, open the PR, run the fix loop, and merge
exactly when it reports `merged` (else close the PR). -/
def iterate (pr maxFix : Nat) (edits : List Git.EditOperation)
    (checks : List CheckResult) (fixes : List FixOutcome) : List LoopEvent :=
  if edits = [] then []
  else
    .committedPush :: (fixLoop maxFix checks fixes 0).1 ++
      (if (fixLoop maxFix checks fixes 0).2 then [.mergedPR pr] else [.closedPR pr])

end Loop

namespace Gen

/-- The optional 5m/1h cache-write breakdown of a usage record. -/
structure CacheCreation where
  ephemeral_5m_input_tokens : Nat
  ephemeral_1h_input_tokens : Nat
deriving DecidableEq, Repr

/-- Vendor token usage for one request (`ApiUsage`). -/
structure ApiUsage where
  input_tokens : Nat
  output_tokens : Nat
  cache_read_input_tokens : Option Nat
  cache_creation_input_tokens : Option Nat
  cache_creation : Option CacheCreation
deriving DecidableEq, Repr

/-- Per-model rates in dollars per million tokens. -/
structure ModelPricing where
  input : ℚ
  output : ℚ
  cacheWrite5m : ℚ
  cacheWrite1h : ℚ
  cacheRead : ℚ
deriving DecidableEq, Repr

/-- The pricing table, with rates fixed by `Generated.test.ts`. -/
def PRICING : List (String × ModelPricing) :=
  [("claude-sonnet-4-6", ⟨3, 15, 3.75, 6, 0.30⟩),
   ("claude-haiku-4-5", ⟨1, 5, 1.25, 2, 0.10⟩),
   ("claude-opus-4-6", ⟨5, 25, 6.25, 10, 0.50⟩)]

/-- The default entry applied to unknown models (`Generated.test.ts` pins it
to the opus rates: `5 + 25` per million input+output tokens). -/
def DEFAULT_PRICING : ModelPricing := ⟨5, 25, 6.25, 10, 0.50⟩

/-- Modelled from the spec: `computeCost` lives in `src/models/Generated.ts`,
which is not among the provided sources — only its unit tests
(`Generated.test.ts`) and its callers are.  Per §3 of the spec, cost is
computed from a per-model pricing table (input, output, 5-minute cache write,
1-hour cache write, cache read) with a default entry for unknown models;
`input_tokens` includes the cached portions, the cache-write total defaults to
the 5m bucket when no breakdown is present, and batch-submitted requests
receive a 50% multiplier on the final cost.  Costs are exact rationals here
rather than IEEE doubles. -/
def computeCost (model : String) (usage : ApiUsage) (batch : Bool) : ℚ :=
  let p := ((PRICING.find? (fun e => e.1 = model)).map (·.2)).getD DEFAULT_PRICING
  let cacheRead : ℚ := (usage.cache_read_input_tokens.getD 0 : Nat)
  let cacheWriteTotal : ℚ := (usage.cache_creation_input_tokens.getD 0 : Nat)
  let w5 : ℚ := match usage.cache_creation with
    | some cc => (cc.ephemeral_5m_input_tokens : ℚ)
    | none => cacheWriteTotal
  let w1 : ℚ := match usage.cache_creation with
    | some cc => (cc.ephemeral_1h_input_tokens : ℚ)
    | none => 0
  let uncached : ℚ := (usage.input_tokens : ℚ) - cacheRead - cacheWriteTotal
  let cost := (uncached * p.input + w5 * p.cacheWrite5m + w1 * p.cacheWrite1h +
      cacheRead * p.cacheRead + (usage.output_tokens : ℚ) * p.output) / 1000000
  if batch then cost * 0.5 else cost

end Gen

namespace Api

/-- The five LLM phases. -/
inductive Phase
  | planner
  | builder
  | fixer
  | reflect
  | memory
deriving DecidableEq, Repr

/-- `THINKING_PHASES` (`src/llm/api.ts` line 29). -/
def THINKING_PHASES : List Phase := [.planner, .builder, .fixer, .reflect]

/-- `MIN_OUTPUT_TOKENS` (`src/llm/api.ts` line 30). -/
def MIN_OUTPUT_TOKENS : Int := 2048

/-- Per-phase configuration (`config.phases[phase]`). -/
structure PhaseConfig where
  model : String
  maxTokens : Int
deriving Repr

/-- The configuration slice `buildParams` reads. -/
structure LlmConfig where
  phases : Phase → PhaseConfig
  thinkingBudget : Int

/-- The token-relevant fields of the request built by `buildParams`:
`max_tokens`, and `some budget` when the `thinking` option is enabled. -/
structure RequestTokenParams where
  max_tokens : Int
  thinking : Option Int
deriving DecidableEq, Repr

/-- The token-budget logic of `buildParams` (`src/llm/api.ts` lines 81-92).
The system blocks, messages and tools of the built request are elided: only
the `max_tokens` and `thinking` fields are modelled. -/
def buildParams (cfg : LlmConfig) (phase : Phase) : RequestTokenParams :=
  let maxTokens := (cfg.phases phase).maxTokens
  let useThinking := THINKING_PHASES.contains phase
  let thinkingBudget := min cfg.thinkingBudget (maxTokens - MIN_OUTPUT_TOKENS)
  { max_tokens := if useThinking then maxTokens + thinkingBudget else maxTokens,
    thinking := if useThinking then some thinkingBudget else none }

/-- A response content block as a JavaScript object: field name to value.
`{ signature: _, ...rest }` destructuring acts uniformly on the fields, so the
object is modelled as its field list. -/
abbrev ContentBlock := List (String × String)

/-- `block.type`. -/
def blockType (b : ContentBlock) : Option String :=
  (b.find? (fun p => p.1 = "type")).map (·.2)

/-- `stripThinkingSignatures` (`src/llm/api.ts` lines 101-109): on blocks of
type `thinking`, drop the `signature` field and keep the rest; all other
blocks pass through unchanged. -/
def stripThinkingSignatures (content : List ContentBlock) : List ContentBlock :=
  content.map fun block =>
    if blockType block = some "thinking" then
      block.filter (fun p => p.1 ≠ "signature")
    else block

end Api

namespace Rx

/-- The character class of `recall`'s escape step
(`query.replace(/[.*+?^${}()|[\]\\]/g, '\\$&')`, `src/agents/memory.ts`
line 128) — exactly ECMAScript's regex syntax characters. -/
def REGEX_SPECIALS : List Char :=
  ['.', '*', '+', '?', '^', '$', '\x7b', '\x7d', '(', ')', '|', '[', ']', '\\']

/-- The escape step itself: prefix every syntax character with a backslash. -/
def escapeRegexChars : List Char → List Char
  | [] => []
  | c :: rest =>
    if REGEX_SPECIALS.contains c then '\\' :: c :: escapeRegexChars rest
    else c :: escapeRegexChars rest

/-- Environment model of `new RegExp(pattern)` restricted to literal patterns:
returns the denoted literal when every atom is a plain non-syntax character or
a backslash-escaped syntax character; `none` when the pattern contains a bare
syntax character or any other escape (where the regex could throw or match
non-literally). -/
def lexLiteralPattern : List Char → Option (List Char)
  | [] => some []
  | c :: rest =>
    if c = '\\' then
      match rest with
      | [] => none
      | d :: rest2 =>
        if REGEX_SPECIALS.contains d then (lexLiteralPattern rest2).map (d :: ·)
        else none
    else if REGEX_SPECIALS.contains c then none
    else (lexLiteralPattern rest).map (c :: ·)

/-- `new RegExp(pattern, 'i').test(subject)` under the literal-pattern model:
case-insensitive substring containment. -/
def regexTestLiteral (pattern subject : List Char) : Option Bool :=
  (lexLiteralPattern pattern).map fun lit =>
    Js.containsSub (Js.lowerText subject) (Js.lowerText lit)

/-- The regex fallback of `recall` on one memory document: the escaped query
tested against `summary` or against `content` (`$or` of the two regexes). -/
def recallFallbackMatches (query summary content : List Char) : Option Bool :=
  match regexTestLiteral (escapeRegexChars query) summary,
        regexTestLiteral (escapeRegexChars query) content with
  | some a, some b => some (a || b)
  | _, _ => none

end Rx

/-! ### Theorems

All statements below are about the definitions above. -/

namespace Memory

theorem estimateTokens_def (s : String) : estimateTokens s = (s.length + 3) / 4 := rfl

theorem length_le_four_est (s : String) : s.length ≤ 4 * estimateTokens s := by
  simp only [estimateTokens_def]; omega

theorem joinNl_length :
    ∀ lines : List String, lines ≠ [] →
      (joinNl lines).length + 1 = (lines.map (fun l => l.length + 1)).sum
  | [], h => absurd rfl h
  | [s], _ => by simp [joinNl]
  | s :: x :: xs, _ => by
    have ih := joinNl_length (x :: xs) (by simp)
    have hJ : joinNl (s :: x :: xs) = s ++ "\n" ++ joinNl (x :: xs) := rfl
    have hn : ("\n").length = 1 := rfl
    rw [hJ, List.map_cons, List.sum_cons, String.length_append, String.length_append]
    omega

theorem sumTok_append (lines : List String) (l : String) :
    sumTok (lines ++ [l]) = sumTok lines + estimateTokens (l ++ "\n") := by
  simp [sumTok]

theorem sum_len_le_sumTok :
    ∀ lines : List String, (lines.map (fun l => l.length + 1)).sum ≤ 4 * sumTok lines
  | [] => by simp [sumTok]
  | l :: rest => by
    have ih := sum_len_le_sumTok rest
    have h : l.length + 1 ≤ 4 * estimateTokens (l ++ "\n") := by
      have := length_le_four_est (l ++ "\n")
      simpa [String.length_append] using this
    simp only [sumTok, List.map_cons, List.sum_cons] at *
    omega

/-- Loop invariant of the past-memories loop: the token counter stays within
budget once a line has been accepted, and it dominates the header plus the
per-line estimates of the accepted lines. -/
theorem pastLoop_spec (budget tokensUsed : Nat) (items : List MemoryItem) :
    ∀ (pastTokens : Nat) (lines : List String),
      (lines ≠ [] → tokensUsed + pastTokens ≤ budget) →
      estimateTokens pastHeader + sumTok lines ≤ pastTokens →
      ((pastLoop budget tokensUsed items pastTokens lines).2 ≠ [] →
          tokensUsed + (pastLoop budget tokensUsed items pastTokens lines).1 ≤ budget) ∧
        estimateTokens pastHeader + sumTok (pastLoop budget tokensUsed items pastTokens lines).2 ≤
          (pastLoop budget tokensUsed items pastTokens lines).1 := by
  induction items with
  | nil =>
    intro pastTokens lines h1 h2
    exact ⟨h1, h2⟩
  | cons m rest ih =>
    intro pastTokens lines h1 h2
    have heq : pastLoop budget tokensUsed (m :: rest) pastTokens lines =
        if budget < tokensUsed + pastTokens + estimateTokens (pastLine m ++ "\n") then
          (pastTokens, lines)
        else
          pastLoop budget tokensUsed rest (pastTokens + estimateTokens (pastLine m ++ "\n"))
            (lines ++ [pastLine m]) := rfl
    rw [heq]
    by_cases hb : budget < tokensUsed + pastTokens + estimateTokens (pastLine m ++ "\n")
    · rw [if_pos hb]
      exact ⟨h1, h2⟩
    · rw [if_neg hb]
      exact ih (pastTokens + estimateTokens (pastLine m ++ "\n")) (lines ++ [pastLine m])
        (fun _ => by omega)
        (by rw [sumTok_append]; omega)

/-- The `## Past` section, when produced, fits in the budget left over after
the notes and ideas sections. -/
theorem pastSection_bound (store : Store) (budget : Nat)
    (h : pastLines store budget ≠ []) :
    usedAfterIdeas store budget +
      estimateTokens (pastHeader ++ joinNl (pastLines store budget)) ≤ budget := by
  by_cases hrem : usedAfterIdeas store budget < budget
  · have hspec := pastLoop_spec budget (usedAfterIdeas store budget) (pastCandidates store)
      (estimateTokens pastHeader) [] (fun hc => absurd rfl hc) (by simp [sumTok])
    rw [pastLines, if_pos hrem] at h ⊢
    obtain ⟨hbud, hsum⟩ := hspec
    have hbud' := hbud h
    -- length accounting for the rendered section
    have hjoin := joinNl_length _ h
    have hsum4 := sum_len_le_sumTok
      (pastLoop budget (usedAfterIdeas store budget) (pastCandidates store)
        (estimateTokens pastHeader) []).2
    have hhead : pastHeader.length ≤ 4 * estimateTokens pastHeader := length_le_four_est _
    simp only [estimateTokens_def, String.length_append] at *
    omega
  · rw [pastLines, if_neg hrem] at h
    exact absurd rfl h

theorem one_le_est_notesSection (store : Store) :
    1 ≤ estimateTokens (notesSection store) := by
  have : ("## Notes to self\n").length = 17 := by decide
  simp only [notesSection, estimateTokens_def, String.length_append]
  omega

theorem one_le_est_ideasSection (store : Store) :
    1 ≤ estimateTokens (ideasSection store) := by
  have : ("## Ideas\n").length = 9 := by decide
  simp only [ideasSection, estimateTokens_def, String.length_append]
  omega

theorem getContext_of_ne (store : Store) (budget : Nat)
    (h : getContextSections store budget ≠ []) :
    getContext store budget = joinBlank (getContextSections store budget) := by
  simp only [getContext]
  rw [if_neg h]

/-- The headline budget bound: whenever at least one section is produced, the
assembled context estimates to at most the budget plus the longest pinned
section. -/
theorem getContext_est_bound (store : Store) (budget : Nat)
    (h : getContextSections store budget ≠ []) :
    estimateTokens (getContext store budget) ≤ budget + longestPinnedBlockEst store := by
  have hgc := getContext_of_ne store budget h
  have hsep : ("\n\n").length = 2 := by decide
  have hN4 := length_le_four_est (notesSection store)
  have hI4 := length_le_four_est (ideasSection store)
  have hP4 := length_le_four_est (pastHeader ++ joinNl (pastLines store budget))
  have hN1 := one_le_est_notesSection store
  have hI1 := one_le_est_ideasSection store
  by_cases hn : notesItems store = [] <;>
    by_cases hi : ideasIncluded store budget <;>
    by_cases hp : pastLines store budget = []
  -- no notes, ideas included, no past
  · have hii := hi.2
    rw [usedAfterNotes, if_pos hn] at hii
    have hsec : getContextSections store budget = [ideasSection store] := by
      simp [getContextSections, hn, hi, hp]
    rw [hgc, hsec]
    have hJ : joinBlank [ideasSection store] = ideasSection store := rfl
    rw [hJ]
    simp only [estimateTokens_def, String.length_append] at *
    omega
  -- no notes, ideas included, past present
  · have hiNe : ideasItems store ≠ [] := hi.1
    have hPb := pastSection_bound store budget hp
    rw [usedAfterIdeas, if_pos hi, usedAfterNotes, if_pos hn] at hPb
    have hsec : getContextSections store budget =
        [ideasSection store, pastHeader ++ joinNl (pastLines store budget)] := by
      simp [getContextSections, hn, hi, hp]
    rw [hgc, hsec]
    have hJ : joinBlank [ideasSection store, pastHeader ++ joinNl (pastLines store budget)] =
        ideasSection store ++ "\n\n" ++ (pastHeader ++ joinNl (pastLines store budget)) := rfl
    rw [hJ]
    have hmax : estimateTokens (ideasSection store) ≤ longestPinnedBlockEst store := by
      rw [longestPinnedBlockEst, if_neg hiNe]
      exact le_max_right _ _
    simp only [estimateTokens_def, String.length_append] at *
    omega
  -- no notes, no ideas, no past: no section at all, contradiction
  · exact absurd (by simp [getContextSections, hn, hi, hp]) h
  -- no notes, no ideas, past present
  · have hPb := pastSection_bound store budget hp
    rw [usedAfterIdeas, if_neg hi, usedAfterNotes, if_pos hn] at hPb
    have hsec : getContextSections store budget =
        [pastHeader ++ joinNl (pastLines store budget)] := by
      simp [getContextSections, hn, hi, hp]
    rw [hgc, hsec]
    have hJ : joinBlank [pastHeader ++ joinNl (pastLines store budget)] =
        pastHeader ++ joinNl (pastLines store budget) := rfl
    rw [hJ]
    simp only [estimateTokens_def, String.length_append] at *
    omega
  -- notes, ideas included, no past
  · have hii := hi.2
    rw [usedAfterNotes, if_neg hn] at hii
    have hsec : getContextSections store budget =
        [notesSection store, ideasSection store] := by
      simp [getContextSections, hn, hi, hp]
    rw [hgc, hsec]
    have hJ : joinBlank [notesSection store, ideasSection store] =
        notesSection store ++ "\n\n" ++ ideasSection store := rfl
    rw [hJ]
    have hmax : estimateTokens (notesSection store) ≤ longestPinnedBlockEst store := by
      rw [longestPinnedBlockEst, if_neg hn]
      exact le_max_left _ _
    simp only [estimateTokens_def, String.length_append] at *
    omega
  -- notes, ideas included, past present
  · have hPb := pastSection_bound store budget hp
    rw [usedAfterIdeas, if_pos hi, usedAfterNotes, if_neg hn] at hPb
    have hsec : getContextSections store budget =
        [notesSection store, ideasSection store,
          pastHeader ++ joinNl (pastLines store budget)] := by
      simp [getContextSections, hn, hi, hp]
    rw [hgc, hsec]
    have hJ : joinBlank [notesSection store, ideasSection store,
          pastHeader ++ joinNl (pastLines store budget)] =
        notesSection store ++ "\n\n" ++ (ideasSection store ++ "\n\n" ++
          (pastHeader ++ joinNl (pastLines store budget))) := rfl
    rw [hJ]
    have hmax : estimateTokens (notesSection store) ≤ longestPinnedBlockEst store := by
      rw [longestPinnedBlockEst, if_neg hn]
      exact le_max_left _ _
    simp only [estimateTokens_def, String.length_append] at *
    omega
  -- notes only: included unconditionally, bounded by the pinned block itself
  · have hsec : getContextSections store budget = [notesSection store] := by
      simp [getContextSections, hn, hi, hp]
    rw [hgc, hsec]
    have hJ : joinBlank [notesSection store] = notesSection store := rfl
    rw [hJ]
    have hmax : estimateTokens (notesSection store) ≤ longestPinnedBlockEst store := by
      rw [longestPinnedBlockEst, if_neg hn]
      exact le_max_left _ _
    omega
  -- notes, no ideas, past present
  · have hPb := pastSection_bound store budget hp
    rw [usedAfterIdeas, if_neg hi, usedAfterNotes, if_neg hn] at hPb
    have hsec : getContextSections store budget =
        [notesSection store, pastHeader ++ joinNl (pastLines store budget)] := by
      simp [getContextSections, hn, hi, hp]
    rw [hgc, hsec]
    have hJ : joinBlank [notesSection store,
          pastHeader ++ joinNl (pastLines store budget)] =
        notesSection store ++ "\n\n" ++ (pastHeader ++ joinNl (pastLines store budget)) := rfl
    rw [hJ]
    have hmax : estimateTokens (notesSection store) ≤ longestPinnedBlockEst store := by
      rw [longestPinnedBlockEst, if_neg hn]
      exact le_max_left _ _
    simp only [estimateTokens_def, String.length_append] at *
    omega

theorem joinBlank_cons (s : String) :
    ∀ t : List String, ∃ rest, joinBlank (s :: t) = s ++ rest
  | [] => ⟨"", by simp [joinBlank]⟩
  | x :: xs =>
    ⟨"\n\n" ++ joinBlank (x :: xs), by
      have h : joinBlank (s :: x :: xs) = s ++ "\n\n" ++ joinBlank (x :: xs) := rfl
      rw [h, String.append_assoc]⟩

/-- Pinned notes are always fully included: the rendered context starts with
the whole `## Notes to self` section. -/
theorem notes_in_full (store : Store) (budget : Nat) (hn : notesItems store ≠ []) :
    ∃ rest, getContext store budget = notesSection store ++ rest := by
  have hsec : getContextSections store budget =
      notesSection store ::
        ((if ideasIncluded store budget then [ideasSection store] else []) ++
         (if pastLines store budget = [] then []
          else [pastHeader ++ joinNl (pastLines store budget)])) := by
    rw [getContextSections, if_neg hn]
    rfl
  have hne : getContextSections store budget ≠ [] := by
    rw [hsec]
    exact List.cons_ne_nil _ _
  rw [getContext_of_ne store budget hne, hsec]
  exact joinBlank_cons _ _

/-- Membership in `insertDesc` is membership in the inserted element or the list. -/
theorem mem_insertDesc (m : MemoryItem) :
    ∀ (l : List MemoryItem) (x : MemoryItem), x ∈ insertDesc m l ↔ x = m ∨ x ∈ l
  | [], x => by simp [insertDesc]
  | y :: ys, x => by
    simp only [insertDesc]
    split
    · simp [List.mem_cons]
    · simp only [List.mem_cons, mem_insertDesc m ys x]
      tauto

theorem mem_sortDesc : ∀ (l : List MemoryItem) (x : MemoryItem), x ∈ sortDesc l ↔ x ∈ l
  | [], x => by simp [sortDesc]
  | a :: l, x => by
    have h : sortDesc (a :: l) = insertDesc a (sortDesc l) := rfl
    rw [h, mem_insertDesc, mem_sortDesc l x]
    simp [List.mem_cons]

theorem map_id_of_eq {α : Type} (f : α → α) :
    ∀ l : List α, (∀ x ∈ l, f x = x) → l.map f = l
  | [], _ => rfl
  | a :: l, h => by
    rw [List.map_cons, h a (List.mem_cons_self a l),
      map_id_of_eq f l (fun x hx => h x (List.mem_cons_of_mem a hx))]

/-- Completing a freshly stored idea: the by-id update rewrites exactly the new
document, leaving the rest of the store untouched. -/
theorem updateIdeaStatus_completed_fresh (store : Store) (id descr summary ctx : String)
    (now : Nat) (hfresh : ∀ m ∈ store, m._id ≠ id) :
    updateIdeaStatus (storeIdea store id descr summary ctx now) id .completed =
      store ++ [{ _id := id, content := descr, summary := summary, pinned := false,
                  ideaStatus := some .completed, ideaContext := some ctx,
                  createdAt := now, updatedAt := now }] := by
  rw [storeIdea, updateIdeaStatus, List.map_append]
  congr 1
  · exact map_id_of_eq _ store fun m hm => by
      rw [if_neg]
      intro hc
      exact hfresh m hm hc.1
  · rw [List.map_cons, List.map_nil, if_pos ⟨rfl, rfl⟩]
    rfl

/-- A completed idea is never pinned, whatever operations ran. -/
theorem completed_unpinned_inv (ops : List MemOp) :
    ∀ store : Store,
      (∀ m ∈ store, m.ideaStatus = some .completed → m.pinned = false) →
      ∀ m ∈ applyOps store ops, m.ideaStatus = some .completed → m.pinned = false := by
  induction ops with
  | nil => exact fun store h => h
  | cons op rest ih =>
    intro store h
    apply ih
    intro m hm hc
    cases op with
    | past id content summary now =>
      rcases List.mem_append.mp hm with hm' | hm'
      · exact h m hm' hc
      · simp only [List.mem_singleton] at hm'
        subst hm'
        simp at hc
    | note id content summary now =>
      rcases List.mem_append.mp hm with hm' | hm'
      · exact h m hm' hc
      · simp only [List.mem_singleton] at hm'
        subst hm'
        simp at hc
    | idea id d s c now =>
      rcases List.mem_append.mp hm with hm' | hm'
      · exact h m hm' hc
      · simp only [List.mem_singleton] at hm'
        subst hm'
        simp at hc
    | unpin id =>
      obtain ⟨m₀, hm₀, rfl⟩ := List.mem_map.mp hm
      by_cases hcond : m₀._id = id ∧ m₀.pinned
      · rw [if_pos hcond]
      · rw [if_neg hcond] at hc ⊢
        exact h m₀ hm₀ hc
    | updateIdea id status =>
      obtain ⟨m₀, hm₀, rfl⟩ := List.mem_map.mp hm
      by_cases hcond : m₀._id = id ∧ m₀.ideaStatus.isSome
      · rw [if_pos hcond] at hc ⊢
        simp only at hc
        cases status with
        | attempted => simp [UpdStatus.toIdeaStatus] at hc
        | completed => simp
      · rw [if_neg hcond] at hc ⊢
        exact h m₀ hm₀ hc

theorem idInv_applyOps (id : String) :
    ∀ ops : List MemOp,
      MemOp.updateIdea id .completed ∉ ops → MemOp.unpin id ∉ ops →
      ∀ store : Store, IdInv id store → IdInv id (applyOps store ops) := by
  intro ops
  induction ops with
  | nil => exact fun _ _ store h => h
  | cons op rest ih =>
    intro hc hu store h
    have hc' : MemOp.updateIdea id .completed ∉ rest :=
      fun hx => hc (List.mem_cons_of_mem _ hx)
    have hu' : MemOp.unpin id ∉ rest := fun hx => hu (List.mem_cons_of_mem _ hx)
    apply ih hc' hu'
    cases op with
    | past id' content summary now =>
      intro m hm hid
      rcases List.mem_append.mp hm with hm' | hm'
      · exact h m hm' hid
      · simp only [List.mem_singleton] at hm'
        subst hm'
        exact ⟨fun hs => by simp at hs, by simp⟩
    | note id' content summary now =>
      intro m hm hid
      rcases List.mem_append.mp hm with hm' | hm'
      · exact h m hm' hid
      · simp only [List.mem_singleton] at hm'
        subst hm'
        exact ⟨fun hs => by simp at hs, by simp⟩
    | idea id' d s c now =>
      intro m hm hid
      rcases List.mem_append.mp hm with hm' | hm'
      · exact h m hm' hid
      · simp only [List.mem_singleton] at hm'
        subst hm'
        exact ⟨fun _ => rfl, by simp⟩
    | unpin id' =>
      have hne : id' ≠ id := fun he => hu (by rw [he]; exact List.mem_cons_self _ _)
      intro m hm hid
      obtain ⟨m₀, hm₀, rfl⟩ := List.mem_map.mp hm
      by_cases hcond : m₀._id = id' ∧ m₀.pinned
      · rw [if_pos hcond] at hid ⊢
        exact absurd (hid ▸ hcond.1.symm) (by simpa using hne)
      · rw [if_neg hcond] at hid ⊢
        exact h m₀ hm₀ hid
    | updateIdea id' status =>
      intro m hm hid
      obtain ⟨m₀, hm₀, rfl⟩ := List.mem_map.mp hm
      by_cases hcond : m₀._id = id' ∧ m₀.ideaStatus.isSome
      · rw [if_pos hcond] at hid ⊢
        simp only at hid
        have hid0 : m₀._id = id := hid
        have hii : id' = id := hcond.1.symm.trans hid0
        have hstat : status = UpdStatus.attempted := by
          cases status with
          | attempted => rfl
          | completed =>
            exfalso
            apply hc
            rw [hii]
            exact List.mem_cons_self _ _
        subst hstat
        constructor
        · intro _
          have hpin := (h m₀ hm₀ hid0).1 hcond.2
          simpa using hpin
        · simp [UpdStatus.toIdeaStatus]
      · rw [if_neg hcond] at hid ⊢
        exact h m₀ hm₀ hid

theorem mem_of_ideasItems {S : Store} {m : MemoryItem} (h : m ∈ ideasItems S) :
    m ∈ S ∧ m.pinned = true ∧ m.ideaStatus.isSome := by
  simp only [ideasItems, pinnedSorted, List.mem_filter, mem_sortDesc] at h
  tauto

theorem mem_of_notesItems {S : Store} {m : MemoryItem} (h : m ∈ notesItems S) :
    m ∈ S ∧ m.pinned = true ∧ m.ideaStatus.isNone := by
  simp only [notesItems, pinnedSorted, List.mem_filter, mem_sortDesc] at h
  tauto

theorem mem_of_pastCandidates {S : Store} {m : MemoryItem} (h : m ∈ pastCandidates S) :
    m ∈ S ∧ m.pinned = false ∧ m.ideaStatus.isNone := by
  simp only [pastCandidates, List.mem_filter, mem_sortDesc, Bool.and_eq_true,
    Bool.not_eq_true'] at h
  tauto

/-- C1 (counterexample): on the empty store with budget 0, `getContext`
returns the fixed first-run message, whose 10-token estimate exceeds
`budget + est(longest pinned block) = 0`; the claimed bound fails as stated. -/
theorem claimC1_counterexample :
    getContext [] 0 = noMemoriesMessage ∧
    longestPinnedBlockEst [] = 0 ∧
    ¬ estimateTokens (getContext [] 0) ≤ 0 + longestPinnedBlockEst [] := by
  decide

/-- C1 (amended): whenever `getContext` produces at least one section — i.e.
does not fall back to the fixed first-run message — its token estimate is at
most the budget plus the estimate of the single longest pinned block; the
`## Notes to self` section is always included in full (the output starts with
it), and the `## Past` section never exceeds what remains of the budget after
the notes and ideas sections. -/
theorem claimC1_amended (store : Store) (budget : Nat)
    (h : getContextSections store budget ≠ []) :
    estimateTokens (getContext store budget) ≤ budget + longestPinnedBlockEst store ∧
    (notesItems store ≠ [] → ∃ rest, getContext store budget = notesSection store ++ rest) ∧
    (pastLines store budget ≠ [] →
      usedAfterIdeas store budget +
        estimateTokens (pastHeader ++ joinNl (pastLines store budget)) ≤ budget) :=
  ⟨getContext_est_bound store budget h,
   fun hn => notes_in_full store budget hn,
   fun hp => pastSection_bound store budget hp⟩

/-- C1 (witness): the amended bound applied to a concrete two-item store. -/
theorem claimC1_witness :
    getContextSections
        [⟨"a", "c", "goal summary", true, none, none, 1000, 1000⟩,
         ⟨"b", "c2", "past summary", false, none, none, 0, 0⟩] 100 ≠ [] ∧
      (estimateTokens (getContext
            [⟨"a", "c", "goal summary", true, none, none, 1000, 1000⟩,
             ⟨"b", "c2", "past summary", false, none, none, 0, 0⟩] 100) ≤
          100 + longestPinnedBlockEst
            [⟨"a", "c", "goal summary", true, none, none, 1000, 1000⟩,
             ⟨"b", "c2", "past summary", false, none, none, 0, 0⟩] ∧
        (notesItems
            [⟨"a", "c", "goal summary", true, none, none, 1000, 1000⟩,
             ⟨"b", "c2", "past summary", false, none, none, 0, 0⟩] ≠ [] →
          ∃ rest, getContext
              [⟨"a", "c", "goal summary", true, none, none, 1000, 1000⟩,
               ⟨"b", "c2", "past summary", false, none, none, 0, 0⟩] 100 =
            notesSection
              [⟨"a", "c", "goal summary", true, none, none, 1000, 1000⟩,
               ⟨"b", "c2", "past summary", false, none, none, 0, 0⟩] ++ rest) ∧
        (pastLines
            [⟨"a", "c", "goal summary", true, none, none, 1000, 1000⟩,
             ⟨"b", "c2", "past summary", false, none, none, 0, 0⟩] 100 ≠ [] →
          usedAfterIdeas
              [⟨"a", "c", "goal summary", true, none, none, 1000, 1000⟩,
               ⟨"b", "c2", "past summary", false, none, none, 0, 0⟩] 100 +
            estimateTokens (pastHeader ++ joinNl (pastLines
              [⟨"a", "c", "goal summary", true, none, none, 1000, 1000⟩,
               ⟨"b", "c2", "past summary", false, none, none, 0, 0⟩] 100)) ≤ 100)) :=
  ⟨by decide, claimC1_amended _ 100 (by decide)⟩

/-- C2 (counterexample): a freshly stored idea marked completed is unpinned
but keeps `ideaStatus = 'completed'`, so the `## Past` query
(`ideaStatus: {$exists: false}`) excludes it: with an ample budget,
`getContext` returns the first-run fallback instead of listing the item under
`## Past`.  (The repository's own test asserts the completed idea's summary is
absent from the context.) -/
theorem claimC2_counterexample :
    updateIdeaStatus (storeIdea [] "a" "Add retry logic" "retry summary" "ctx" 0) "a"
        UpdStatus.completed =
      [⟨"a", "Add retry logic", "retry summary", false, some .completed, some "ctx", 0, 0⟩] ∧
    pastCandidates
      (updateIdeaStatus (storeIdea [] "a" "Add retry logic" "retry summary" "ctx" 0) "a"
        UpdStatus.completed) = [] ∧
    getContext
      (updateIdeaStatus (storeIdea [] "a" "Add retry logic" "retry summary" "ctx" 0) "a"
        UpdStatus.completed) 10000 = noMemoriesMessage := by
  decide

/-- C2 (amended): after `storeIdea` and `updateIdeaStatus(id, "completed")`
with a fresh id, the item no longer appears among the `## Ideas` items of
`getContext`, but it does **not** move into `## Past` either: it is absent
from every section's item set for every budget (while staying in the store,
so `recall` can still find it). -/
theorem claimC2_amended (store : Store) (id descr summary ctx : String) (now : Nat)
    (hfresh : ∀ m ∈ store, m._id ≠ id) :
    (∀ m ∈ ideasItems
        (updateIdeaStatus (storeIdea store id descr summary ctx now) id .completed),
      m._id ≠ id) ∧
    (∀ m ∈ notesItems
        (updateIdeaStatus (storeIdea store id descr summary ctx now) id .completed),
      m._id ≠ id) ∧
    (∀ m ∈ pastCandidates
        (updateIdeaStatus (storeIdea store id descr summary ctx now) id .completed),
      m._id ≠ id) ∧
    (∃ m ∈ updateIdeaStatus (storeIdea store id descr summary ctx now) id .completed,
      m._id = id ∧ m.ideaStatus = some .completed ∧ m.pinned = false) := by
  rw [updateIdeaStatus_completed_fresh store id descr summary ctx now hfresh]
  refine ⟨?_, ?_, ?_, ?_⟩
  · intro m hm
    obtain ⟨hmem, hpin, _⟩ := mem_of_ideasItems hm
    rcases List.mem_append.mp hmem with hm' | hm'
    · exact hfresh m hm'
    · simp only [List.mem_singleton] at hm'
      subst hm'
      simp at hpin
  · intro m hm
    obtain ⟨hmem, hpin, _⟩ := mem_of_notesItems hm
    rcases List.mem_append.mp hmem with hm' | hm'
    · exact hfresh m hm'
    · simp only [List.mem_singleton] at hm'
      subst hm'
      simp at hpin
  · intro m hm
    obtain ⟨hmem, _, hnone⟩ := mem_of_pastCandidates hm
    rcases List.mem_append.mp hmem with hm' | hm'
    · exact hfresh m hm'
    · simp only [List.mem_singleton] at hm'
      subst hm'
      simp at hnone
  · exact ⟨_, List.mem_append.mpr (Or.inr (List.mem_singleton_self _)), rfl, rfl, rfl⟩

/-- C2 (witness): the amended statement applied to a concrete store. -/
theorem claimC2_witness :
    (∀ m ∈ ([⟨"b", "x", "y", true, none, none, 0, 0⟩] : Store), m._id ≠ "a") ∧
      ((∀ m ∈ ideasItems
          (updateIdeaStatus (storeIdea [⟨"b", "x", "y", true, none, none, 0, 0⟩]
            "a" "d" "s" "c" 5) "a" .completed), m._id ≠ "a") ∧
        (∀ m ∈ notesItems
            (updateIdeaStatus (storeIdea [⟨"b", "x", "y", true, none, none, 0, 0⟩]
              "a" "d" "s" "c" 5) "a" .completed), m._id ≠ "a") ∧
        (∀ m ∈ pastCandidates
            (updateIdeaStatus (storeIdea [⟨"b", "x", "y", true, none, none, 0, 0⟩]
              "a" "d" "s" "c" 5) "a" .completed), m._id ≠ "a") ∧
        (∃ m ∈ updateIdeaStatus (storeIdea [⟨"b", "x", "y", true, none, none, 0, 0⟩]
            "a" "d" "s" "c" 5) "a" .completed,
          m._id = "a" ∧ m.ideaStatus = some .completed ∧ m.pinned = false)) :=
  ⟨by decide, claimC2_amended _ "a" "d" "s" "c" 5 (by decide)⟩

/-- C3 (counterexample): `unpin` applied to a pending idea clears `pinned`
although the idea has never been completed — `storeIdea` then `unpin` yields
an unpinned pending idea, refuting the claimed invariant as stated. -/
theorem claimC3_counterexample :
    applyOps [] [MemOp.idea "a" "d" "s" "c" 0, MemOp.unpin "a"] =
      [⟨"a", "d", "s", false, some .pending, some "c", 0, 0⟩] ∧
    MemOp.updateIdea "a" UpdStatus.completed ∉
      ([MemOp.idea "a" "d" "s" "c" 0, MemOp.unpin "a"] : List MemOp) := by
  decide

/-- C3 (amended): over every operation sequence run from the empty store,
every item with `ideaStatus = completed` is unpinned; and every item with
`ideaStatus ∈ {pending, attempted}` whose id has seen neither a completing
`updateIdeaStatus` nor an `unpin` is pinned.  (The original claim lacked the
`unpin` proviso, which the counterexample shows to be necessary.) -/
theorem claimC3_amended (ops : List MemOp) :
    (∀ m ∈ applyOps [] ops, m.ideaStatus = some .completed → m.pinned = false) ∧
    (∀ m ∈ applyOps [] ops,
      (m.ideaStatus = some .pending ∨ m.ideaStatus = some .attempted) →
      MemOp.updateIdea m._id UpdStatus.completed ∉ ops →
      MemOp.unpin m._id ∉ ops →
      m.pinned = true) := by
  constructor
  · exact completed_unpinned_inv ops [] (by intro m hm; simp at hm)
  · intro m hm hst hc hu
    have hinv := idInv_applyOps m._id ops hc hu [] (by intro m' hm'; simp at hm') m hm rfl
    have hsome : m.ideaStatus.isSome := by
      rcases hst with h | h <;> rw [h] <;> rfl
    exact hinv.1 hsome

/-- C3 (witness): the amended invariant applied to a one-operation history. -/
theorem claimC3_witness :
    (⟨"a", "d", "s", true, some .pending, some "c", 0, 0⟩ : MemoryItem) ∈
      applyOps [] [MemOp.idea "a" "d" "s" "c" 0] ∧
    (⟨"a", "d", "s", true, some .pending, some "c", 0, 0⟩ : MemoryItem).pinned = true :=
  ⟨by decide,
   (claimC3_amended [MemOp.idea "a" "d" "s" "c" 0]).2
     ⟨"a", "d", "s", true, some .pending, some "c", 0, 0⟩
     (by decide) (by decide) (by decide) (by decide)⟩

end Memory

namespace Js

theorem scanFirst_eq_none_iff (p : Nat → Bool) :
    ∀ (k i : Nat), scanFirst p i k = none ↔ ∀ j, i ≤ j → j < i + k → p j = false := by
  intro k
  induction k with
  | zero =>
    intro i
    simp only [scanFirst, true_iff]
    intro j hj1 hj2
    omega
  | succ k ih =>
    intro i
    simp only [scanFirst]
    by_cases hp : p i
    · rw [if_pos hp]
      simp only [reduceCtorEq, false_iff, not_forall]
      exact ⟨i, le_refl i, by omega, by simp [hp]⟩
    · rw [if_neg hp]
      rw [ih (i + 1)]
      constructor
      · intro h j hj1 hj2
        rcases Nat.eq_or_lt_of_le hj1 with rfl | hlt
        · exact Bool.eq_false_iff.mpr hp
        · exact h j hlt (by omega)
      · intro h j hj1 hj2
        exact h j (by omega) (by omega)

theorem scanFirst_eq_some (p : Nat → Bool) :
    ∀ (k i r : Nat), scanFirst p i k = some r →
      p r = true ∧ i ≤ r ∧ r < i + k ∧ ∀ j, i ≤ j → j < r → p j = false := by
  intro k
  induction k with
  | zero =>
    intro i r h
    simp [scanFirst] at h
  | succ k ih =>
    intro i r h
    simp only [scanFirst] at h
    by_cases hp : p i
    · rw [if_pos hp] at h
      obtain rfl : i = r := Option.some_injective _ h
      exact ⟨hp, le_refl _, by omega, fun j hj1 hj2 => by omega⟩
    · rw [if_neg hp] at h
      obtain ⟨h1, h2, h3, h4⟩ := ih (i + 1) r h
      refine ⟨h1, by omega, by omega, fun j hj1 hj2 => ?_⟩
      rcases Nat.eq_or_lt_of_le hj1 with rfl | hlt
      · exact Bool.eq_false_iff.mpr hp
      · exact h4 j hlt hj2

theorem matchesAt_iff {content pat : Text} {i : Nat} :
    matchesAt content pat i = true ↔ (content.drop i).take pat.length = pat := by
  simp [matchesAt]

theorem matchesAt_le {content pat : Text} {i : Nat} (hne : pat ≠ [])
    (h : matchesAt content pat i = true) : i + pat.length ≤ content.length := by
  rw [matchesAt_iff] at h
  have hlen := congrArg List.length h
  rw [List.length_take, List.length_drop] at hlen
  have hpos : 0 < pat.length := List.length_pos.mpr hne
  omega

theorem splice_of_matchesAt {content pat : Text} {i : Nat}
    (h : matchesAt content pat i = true) :
    content = content.take i ++ pat ++ content.drop (i + pat.length) := by
  rw [matchesAt_iff] at h
  have h1 : content.drop i = pat ++ content.drop (i + pat.length) := by
    conv_lhs => rw [← List.take_append_drop pat.length (content.drop i)]
    rw [h, List.drop_drop, Nat.add_comm]
  conv_lhs => rw [← List.take_append_drop i content, h1]
  rw [List.append_assoc]

theorem occCount_eq_zero_iff {content pat : Text} :
    occCount content pat = 0 ↔
      ∀ i, i < content.length + 1 → matchesAt content pat i = false := by
  simp [occCount, List.length_eq_zero, List.filter_eq_nil_iff, List.mem_range,
    Bool.not_eq_true]

theorem mem_occFilter {content pat : Text} {i : Nat} :
    i ∈ (List.range (content.length + 1)).filter (fun j => matchesAt content pat j) ↔
      i < content.length + 1 ∧ matchesAt content pat i = true := by
  simp [List.mem_filter, List.mem_range]

theorem occCount_one_unique {content pat : Text} (h : occCount content pat = 1) :
    ∃ i, matchesAt content pat i = true ∧ i < content.length + 1 ∧
      ∀ j, j < content.length + 1 → matchesAt content pat j = true → j = i := by
  obtain ⟨a, ha⟩ := List.length_eq_one.mp h
  have hamem : a ∈ (List.range (content.length + 1)).filter
      (fun j => matchesAt content pat j) := by
    rw [ha]
    exact List.mem_singleton_self a
  obtain ⟨halt, hamatch⟩ := mem_occFilter.mp hamem
  refine ⟨a, hamatch, halt, fun j hj1 hj2 => ?_⟩
  have : j ∈ (List.range (content.length + 1)).filter
      (fun k => matchesAt content pat k) := mem_occFilter.mpr ⟨hj1, hj2⟩
  rw [ha] at this
  exact List.mem_singleton.mp this

theorem occCount_ge_two {content pat : Text} (h : 2 ≤ occCount content pat) :
    ∃ a b, a ≠ b ∧ matchesAt content pat a = true ∧ matchesAt content pat b = true ∧
      a < content.length + 1 ∧ b < content.length + 1 := by
  cases hl : (List.range (content.length + 1)).filter (fun j => matchesAt content pat j) with
  | nil =>
    rw [occCount, hl] at h
    simp at h
  | cons a rest =>
    cases hrest : rest with
    | nil =>
      subst hrest
      rw [occCount, hl] at h
      simp at h
    | cons b t =>
      subst hrest
      have hnd : (a :: b :: t).Nodup := by
        rw [← hl]
        exact (List.nodup_range _).filter _
      have hamem := mem_occFilter.mp
        (show a ∈ (List.range (content.length + 1)).filter
            (fun j => matchesAt content pat j) by
          rw [hl]; exact List.mem_cons_self _ _)
      have hbmem := mem_occFilter.mp
        (show b ∈ (List.range (content.length + 1)).filter
            (fun j => matchesAt content pat j) by
          rw [hl]; exact List.mem_cons_of_mem _ (List.mem_cons_self _ _))
      have hne : a ≠ b := fun hab =>
        (List.nodup_cons.mp hnd).1 (hab ▸ List.mem_cons_self _ _)
      exact ⟨a, b, hne, hamem.2, hbmem.2, hamem.1, hbmem.1⟩

theorem occCount_eq_one_of_unique {content pat : Text} {i : Nat}
    (hmatch : matchesAt content pat i = true) (hi : i < content.length + 1)
    (huniq : ∀ j, j < content.length + 1 → matchesAt content pat j = true → j = i) :
    occCount content pat = 1 := by
  by_contra hne
  rcases Nat.lt_or_ge (occCount content pat) 2 with hlt | hge
  · interval_cases h : occCount content pat
    · rw [occCount_eq_zero_iff] at h
      rw [h i hi] at hmatch
      exact Bool.false_ne_true hmatch
    · exact hne rfl
  · obtain ⟨a, b, hab, ham, hbm, ha, hb⟩ := occCount_ge_two hge
    exact hab ((huniq a ha ham).trans (huniq b hb hbm).symm)

theorem jsIndexOf_eq_none_iff {content pat : Text} {start : Nat} :
    jsIndexOf content pat start = none ↔
      ∀ j, min start content.length ≤ j → j < content.length + 1 →
        matchesAt content pat j = false := by
  unfold jsIndexOf
  rw [scanFirst_eq_none_iff]
  have hpos : min start content.length ≤ content.length := Nat.min_le_right _ _
  constructor
  · intro h j hj1 hj2
    exact h j hj1 (by omega)
  · intro h j hj1 hj2
    exact h j hj1 (by omega)

theorem jsIndexOf_eq_some {content pat : Text} {start r : Nat}
    (h : jsIndexOf content pat start = some r) :
    matchesAt content pat r = true ∧ min start content.length ≤ r ∧
      r < content.length + 1 ∧
      ∀ j, min start content.length ≤ j → j < r → matchesAt content pat j = false := by
  unfold jsIndexOf at h
  have hpos : min start content.length ≤ content.length := Nat.min_le_right _ _
  obtain ⟨h1, h2, h3, h4⟩ := scanFirst_eq_some _ _ _ _ h
  exact ⟨h1, h2, by omega, h4⟩

end Js

namespace Git

theorem stepEdit_replace_notFound (fs : FS) (errs : List String) (path : String)
    (old new content : Js.Text) (hread : fsRead fs path = some content)
    (h0 : Js.jsIndexOf content old 0 = none) :
    stepEdit (fs, errs) (.replace path old new) =
      (fs, errs ++ ["replace \"" ++ path ++ "\": oldString not found in file"]) := by
  simp only [stepEdit, hread, h0]

theorem stepEdit_replace_ambiguous (fs : FS) (errs : List String) (path : String)
    (old new content : Js.Text) (index j : Nat) (hread : fsRead fs path = some content)
    (h0 : Js.jsIndexOf content old 0 = some index)
    (h1 : Js.jsIndexOf content old (index + 1) = some j) :
    stepEdit (fs, errs) (.replace path old new) =
      (fs, errs ++ ["replace \"" ++ path ++
        "\": oldString matches multiple locations — add more context to make it unique"]) := by
  simp only [stepEdit, hread, h0, h1]

theorem stepEdit_replace_splice (fs : FS) (errs : List String) (path : String)
    (old new content : Js.Text) (index : Nat) (hread : fsRead fs path = some content)
    (h0 : Js.jsIndexOf content old 0 = some index)
    (h1 : Js.jsIndexOf content old (index + 1) = none) :
    stepEdit (fs, errs) (.replace path old new) =
      (fsWrite fs path
        (content.take index ++ new ++ content.drop (index + old.length)), errs) := by
  simp only [stepEdit, hread, h0, h1]

/-- With a non-empty `oldString`: the replace arm succeeds precisely on a
unique occurrence, splicing it out; otherwise it fails and leaves the tree
unchanged, appending one message. -/
theorem stepEdit_replace_occ (fs : FS) (errs : List String) (path : String)
    (old new content : Js.Text) (hread : fsRead fs path = some content)
    (hold : old ≠ []) :
    (Js.occCount content old = 1 →
      ∃ i, content = content.take i ++ old ++ content.drop (i + old.length) ∧
        stepEdit (fs, errs) (.replace path old new) =
          (fsWrite fs path (content.take i ++ new ++ content.drop (i + old.length)),
           errs)) ∧
    (Js.occCount content old ≠ 1 →
      ∃ msg, stepEdit (fs, errs) (.replace path old new) = (fs, errs ++ [msg])) := by
  cases h0 : Js.jsIndexOf content old 0 with
  | none =>
    have hocc : Js.occCount content old = 0 := by
      rw [Js.occCount_eq_zero_iff]
      intro j hj
      exact (Js.jsIndexOf_eq_none_iff.mp h0) j (by omega) hj
    constructor
    · intro h1
      omega
    · intro _
      exact ⟨_, stepEdit_replace_notFound fs errs path old new content hread h0⟩
  | some index =>
    obtain ⟨hm0, _, hlt0, hmin0⟩ := Js.jsIndexOf_eq_some h0
    have hIndexLen : index + old.length ≤ content.length := Js.matchesAt_le hold hm0
    have hIndexLt : index < content.length := by
      have := List.length_pos.mpr hold
      omega
    cases h1 : Js.jsIndexOf content old (index + 1) with
    | some j =>
      -- a second occurrence exists: the occurrence count cannot be 1
      obtain ⟨hmj, hjge, hjlt, _⟩ := Js.jsIndexOf_eq_some h1
      have hjmin : min (index + 1) content.length = index + 1 := by omega
      rw [hjmin] at hjge
      constructor
      · intro hocc
        obtain ⟨i, _, _, huniq⟩ := Js.occCount_one_unique hocc
        have hji : j = i := huniq j hjlt hmj
        have hii : index = i := huniq index (by omega) hm0
        omega
      · intro _
        exact ⟨_, stepEdit_replace_ambiguous fs errs path old new content index j
          hread h0 h1⟩
    | none =>
      -- `index` is the unique occurrence
      have huniq : ∀ j, j < content.length + 1 → Js.matchesAt content old j = true →
          j = index := by
        intro j hj hmj
        by_contra hne
        rcases Nat.lt_or_ge j index with hlt | hge
        · rw [hmin0 j (by omega) hlt] at hmj
          exact Bool.false_ne_true hmj
        · have hjmin : min (index + 1) content.length ≤ j := by omega
          rw [Js.jsIndexOf_eq_none_iff.mp h1 j hjmin hj] at hmj
          exact Bool.false_ne_true hmj
      have hocc : Js.occCount content old = 1 :=
        Js.occCount_eq_one_of_unique hm0 (by omega) huniq
      constructor
      · intro _
        exact ⟨index, Js.splice_of_matchesAt hm0,
          stepEdit_replace_splice fs errs path old new content index hread h0 h1⟩
      · intro hocc2
        exact absurd hocc hocc2

/-- Every operation either succeeds (new tree, no message) or fails (same
tree, exactly one appended message). -/
theorem stepEdit_cases (g : FS) (errs : List String) (op : EditOperation) :
    (∃ g2, stepEdit (g, errs) op = (g2, errs)) ∨
    (∃ msg, stepEdit (g, errs) op = (g, errs ++ [msg])) := by
  cases op with
  | replace path old new =>
    cases hread : fsRead g path with
    | none =>
      right
      refine ⟨"replace \"" ++ path ++ "\": " ++ enoentMsg path, ?_⟩
      simp only [stepEdit, hread]
    | some content =>
      cases h0 : Js.jsIndexOf content old 0 with
      | none =>
        exact Or.inr ⟨_, stepEdit_replace_notFound g errs path old new content hread h0⟩
      | some index =>
        cases h1 : Js.jsIndexOf content old (index + 1) with
        | none =>
          exact Or.inl ⟨_,
            stepEdit_replace_splice g errs path old new content index hread h0 h1⟩
        | some j =>
          exact Or.inr ⟨_,
            stepEdit_replace_ambiguous g errs path old new content index j hread h0 h1⟩
  | create path content =>
    left
    refine ⟨fsWrite g path content, ?_⟩
    simp only [stepEdit]
  | delete path =>
    by_cases hread : (fsRead g path).isSome
    · left
      refine ⟨fsRemove g path, ?_⟩
      simp only [stepEdit, if_pos hread]
    · right
      refine ⟨"delete \"" ++ path ++ "\": " ++ enoentMsg path, ?_⟩
      simp only [stepEdit, if_neg hread]

theorem stepEdit_frame (fs : FS) (errs : List String) (op : EditOperation) :
    (stepEdit (fs, errs) op).1 = (stepEdit (fs, []) op).1 ∧
    (stepEdit (fs, errs) op).2 = errs ++ (stepEdit (fs, []) op).2 := by
  cases op with
  | replace path old new =>
    cases hread : fsRead fs path with
    | none => constructor <;> simp [stepEdit, hread]
    | some content =>
      cases h0 : Js.jsIndexOf content old 0 with
      | none =>
        rw [stepEdit_replace_notFound fs errs path old new content hread h0,
          stepEdit_replace_notFound fs [] path old new content hread h0]
        exact ⟨rfl, rfl⟩
      | some index =>
        cases h1 : Js.jsIndexOf content old (index + 1) with
        | none =>
          rw [stepEdit_replace_splice fs errs path old new content index hread h0 h1,
            stepEdit_replace_splice fs [] path old new content index hread h0 h1]
          exact ⟨rfl, by simp⟩
        | some j =>
          rw [stepEdit_replace_ambiguous fs errs path old new content index j hread h0 h1,
            stepEdit_replace_ambiguous fs [] path old new content index j hread h0 h1]
          exact ⟨rfl, rfl⟩
  | create path content => exact ⟨rfl, by simp [stepEdit]⟩
  | delete path =>
    by_cases hread : (fsRead fs path).isSome
    · constructor <;> simp [stepEdit, hread]
    · constructor <;> simp [stepEdit, hread]

theorem applyEdits_from (ops : List EditOperation) :
    ∀ (fs : FS) (errs : List String),
      ops.foldl stepEdit (fs, errs) =
        ((applyEdits fs ops).1, errs ++ (applyEdits fs ops).2) := by
  induction ops with
  | nil =>
    intro fs errs
    simp [applyEdits]
  | cons op rest ih =>
    intro fs errs
    obtain ⟨ha, hb⟩ := stepEdit_frame fs errs op
    have h1 : stepEdit (fs, errs) op =
        ((stepEdit (fs, []) op).1, errs ++ (stepEdit (fs, []) op).2) :=
      Prod.ext ha hb
    have hL : (op :: rest).foldl stepEdit (fs, errs) =
        rest.foldl stepEdit (stepEdit (fs, errs) op) := rfl
    rw [hL, h1, ih ((stepEdit (fs, []) op).1) (errs ++ (stepEdit (fs, []) op).2)]
    have hA : applyEdits fs (op :: rest) =
        ((applyEdits (stepEdit (fs, []) op).1 rest).1,
         (stepEdit (fs, []) op).2 ++ (applyEdits (stepEdit (fs, []) op).1 rest).2) := by
      have h2 : applyEdits fs (op :: rest) =
          rest.foldl stepEdit ((stepEdit (fs, []) op).1, (stepEdit (fs, []) op).2) := rfl
      rw [h2, ih]
    rw [hA]
    simp [List.append_assoc]

/-- `applyEdits` decomposes over concatenation: the suffix is processed against
the tree mutated by the prefix, and the error lists concatenate — i.e. a
failure in the prefix neither stops processing nor rolls anything back. -/
theorem applyEdits_append (fs : FS) (ops₁ ops₂ : List EditOperation) :
    applyEdits fs (ops₁ ++ ops₂) =
      ((applyEdits (applyEdits fs ops₁).1 ops₂).1,
       (applyEdits fs ops₁).2 ++ (applyEdits (applyEdits fs ops₁).1 ops₂).2) := by
  rw [applyEdits, List.foldl_append]
  have h1 : ops₁.foldl stepEdit (fs, []) = applyEdits fs ops₁ := rfl
  rw [h1]
  have h2 : applyEdits fs ops₁ = ((applyEdits fs ops₁).1, (applyEdits fs ops₁).2) := rfl
  rw [h2]
  exact applyEdits_from ops₂ _ _

/-- C4 (counterexample): with `oldString = ""` and an empty file there is
exactly one occurrence index (0), yet the code reports
`oldString matches multiple locations` and leaves the file unchanged, because
`"".indexOf("", 1)` is clamped to 0 in JavaScript. -/
theorem claimC4_counterexample :
    Js.occCount [] [] = 1 ∧
    stepEdit (([("f", [])] : FS), []) (.replace "f" [] ['x']) =
      ([("f", [])],
       ["replace \"f\": oldString matches multiple locations — add more context to make it unique"]) := by
  decide

/-- C4 (amended): for every Replace whose `oldString` is non-empty and whose
target file exists: if `oldString` occurs exactly once, the file becomes
`prefixPart ++ newString ++ suffixPart` with the unique occurrence spliced
out; if it occurs zero or two-or-more times, the operation fails — one error
message is collected and the file system is unchanged.  (With the empty
`oldString` the code always fails, even at the unique-occurrence input of the
counterexample.) -/
theorem claimC4_amended (fs : FS) (errs : List String) (path : String)
    (old new content : Js.Text) (hread : fsRead fs path = some content)
    (hold : old ≠ []) :
    (Js.occCount content old = 1 →
      ∃ i, content = content.take i ++ old ++ content.drop (i + old.length) ∧
        stepEdit (fs, errs) (.replace path old new) =
          (fsWrite fs path (content.take i ++ new ++ content.drop (i + old.length)),
           errs)) ∧
    (Js.occCount content old ≠ 1 →
      ∃ msg, stepEdit (fs, errs) (.replace path old new) = (fs, errs ++ [msg])) :=
  stepEdit_replace_occ fs errs path old new content hread hold

/-- C4 (witness): the amended contract applied to a concrete one-file tree. -/
theorem claimC4_witness :
    fsRead ([("f", ['a', 'b', 'c'])] : FS) "f" = some ['a', 'b', 'c'] ∧
      (['b'] : Js.Text) ≠ [] ∧
      ((Js.occCount ['a', 'b', 'c'] ['b'] = 1 →
        ∃ i, (['a', 'b', 'c'] : Js.Text) =
            List.take i ['a', 'b', 'c'] ++ ['b'] ++
              List.drop (i + List.length ['b']) ['a', 'b', 'c'] ∧
          stepEdit (([("f", ['a', 'b', 'c'])] : FS), []) (.replace "f" ['b'] ['x', 'y']) =
            (fsWrite [("f", ['a', 'b', 'c'])] "f"
              (List.take i ['a', 'b', 'c'] ++ ['x', 'y'] ++
                List.drop (i + List.length ['b']) ['a', 'b', 'c']), [])) ∧
      (Js.occCount ['a', 'b', 'c'] ['b'] ≠ 1 →
        ∃ msg, stepEdit (([("f", ['a', 'b', 'c'])] : FS), []) (.replace "f" ['b'] ['x', 'y']) =
          ([("f", ['a', 'b', 'c'])], [] ++ [msg]))) :=
  ⟨by decide, by decide,
   claimC4_amended [("f", ['a', 'b', 'c'])] [] "f" ['b'] ['x', 'y'] ['a', 'b', 'c']
     (by decide) (by decide)⟩

/-- C5: `applyEdits` processes every operation in order even after an earlier
operation failed (the suffix runs against the tree mutated so far, and the
error lists concatenate); each operation either succeeds silently or appends
exactly one failure message; the whole call throws the single concatenated
error if and only if at least one operation failed; and the mutated tree is
retained when the call throws. -/
theorem claimC5_applyEdits (fs : FS) (ops₁ ops₂ : List EditOperation) :
    applyEdits fs (ops₁ ++ ops₂) =
      ((applyEdits (applyEdits fs ops₁).1 ops₂).1,
       (applyEdits fs ops₁).2 ++ (applyEdits (applyEdits fs ops₁).1 ops₂).2) ∧
    (∀ (g : FS) (errs : List String) (op : EditOperation),
      (∃ g2, stepEdit (g, errs) op = (g2, errs)) ∨
      (∃ msg, stepEdit (g, errs) op = (g, errs ++ [msg]))) ∧
    ((applyEditsCall fs (ops₁ ++ ops₂)).2 = .ok () ↔
      (applyEdits fs (ops₁ ++ ops₂)).2 = []) ∧
    (applyEditsCall fs (ops₁ ++ ops₂)).1 = (applyEdits fs (ops₁ ++ ops₂)).1 := by
  refine ⟨applyEdits_append fs ops₁ ops₂, stepEdit_cases, ?_, rfl⟩
  simp only [applyEditsCall]
  by_cases h : (applyEdits fs (ops₁ ++ ops₂)).2 = []
  · simp [h]
  · simp [h]

end Git

namespace Loop

theorem fixLoop_no_merge (maxFix n : Nat) :
    ∀ (checks : List CheckResult) (fixes : List FixOutcome) (attempts : Nat),
      LoopEvent.mergedPR n ∉ (fixLoop maxFix checks fixes attempts).1 ∧
      LoopEvent.closedPR n ∉ (fixLoop maxFix checks fixes attempts).1 := by
  intro checks
  induction checks with
  | nil =>
    intro fixes attempts
    simp [fixLoop]
  | cons r crest ih =>
    intro fixes attempts
    by_cases hp : r.passed
    · simp [fixLoop, hp]
    · by_cases hex : maxFix ≤ attempts
      · simp [fixLoop, hp, hex]
      · cases fixes with
        | nil => simp [fixLoop, hp, hex]
        | cons f frest =>
          cases f with
          | fixThrew => simp [fixLoop, hp, hex]
          | fixEdits es =>
            cases es with
            | nil => simp [fixLoop, hp, hex]
            | cons e es' =>
              have h : fixLoop maxFix (r :: crest) (FixOutcome.fixEdits (e :: es') :: frest)
                  attempts =
                  (LoopEvent.awaitedChecks false :: LoopEvent.committedPush ::
                    (fixLoop maxFix crest frest (attempts + 1)).1,
                   (fixLoop maxFix crest frest (attempts + 1)).2) := by
                simp [fixLoop, hp, hex]
              rw [h]
              obtain ⟨ih1, ih2⟩ := ih frest (attempts + 1)
              constructor <;> simp [List.mem_cons, ih1, ih2]

theorem fixLoop_merged_mem (maxFix : Nat) :
    ∀ (checks : List CheckResult) (fixes : List FixOutcome) (attempts : Nat),
      (fixLoop maxFix checks fixes attempts).2 = true →
      LoopEvent.awaitedChecks true ∈ (fixLoop maxFix checks fixes attempts).1 := by
  intro checks
  induction checks with
  | nil =>
    intro fixes attempts h
    simp [fixLoop] at h
  | cons r crest ih =>
    intro fixes attempts h
    by_cases hp : r.passed
    · simp [fixLoop, hp]
    · by_cases hex : maxFix ≤ attempts
      · simp [fixLoop, hp, hex] at h
      · cases fixes with
        | nil => simp [fixLoop, hp, hex] at h
        | cons f frest =>
          cases f with
          | fixThrew => simp [fixLoop, hp, hex] at h
          | fixEdits es =>
            cases es with
            | nil => simp [fixLoop, hp, hex] at h
            | cons e es' =>
              have heq : fixLoop maxFix (r :: crest) (FixOutcome.fixEdits (e :: es') :: frest)
                  attempts =
                  (LoopEvent.awaitedChecks false :: LoopEvent.committedPush ::
                    (fixLoop maxFix crest frest (attempts + 1)).1,
                   (fixLoop maxFix crest frest (attempts + 1)).2) := by
                simp [fixLoop, hp, hex]
              rw [heq] at h ⊢
              have := ih frest (attempts + 1) h
              simp [List.mem_cons, this]

/-- C6: in the modelled iteration trace, every `mergePR` event is strictly
preceded by an `awaitChecks` event that reported `passed = true`; a PR is
never merged before checks pass. -/
theorem claimC6_mergeGated (pr maxFix : Nat) (edits : List Git.EditOperation)
    (checks : List CheckResult) (fixes : List FixOutcome) :
    ∀ j, (iterate pr maxFix edits checks fixes).get? j = some (LoopEvent.mergedPR pr) →
      ∃ i, i < j ∧
        (iterate pr maxFix edits checks fixes).get? i =
          some (LoopEvent.awaitedChecks true) := by
  intro j hj
  by_cases hed : edits = []
  · rw [iterate, if_pos hed] at hj
    simp at hj
  · rw [iterate, if_neg hed] at hj ⊢
    rcases hm : (fixLoop maxFix checks fixes 0).2 with _ | _
    · -- not merged: no mergedPR event occurs anywhere in the trace
      exfalso
      rw [hm, if_neg Bool.false_ne_true] at hj
      have hmem := List.get?_mem hj
      rcases List.mem_cons.mp hmem with hc | hc
      · exact LoopEvent.noConfusion hc
      · rcases List.mem_append.mp hc with hc' | hc'
        · exact (fixLoop_no_merge maxFix pr checks fixes 0).1 hc'
        · simp at hc'
    · rw [hm] at hj
      rw [if_pos rfl] at hj ⊢
      -- merged: the fix-loop trace contains a passing awaitChecks event
      have hpass := fixLoop_merged_mem maxFix checks fixes 0 hm
      obtain ⟨k, hk⟩ := List.get?_of_mem hpass
      have hklt : k < (fixLoop maxFix checks fixes 0).1.length :=
        List.get?_eq_some.mp hk |>.1
      refine ⟨k + 1, ?_, ?_⟩
      · -- the merge event sits after the whole fix-loop trace
        rcases Nat.eq_zero_or_pos j with rfl | hjpos
        · simp at hj
        · have hj1 : ((fixLoop maxFix checks fixes 0).1 ++
              [LoopEvent.mergedPR pr]).get? (j - 1) = some (LoopEvent.mergedPR pr) := by
            cases j with
            | zero => omega
            | succ j' => simpa using hj
          by_contra hlt
          have hjlt : j - 1 < (fixLoop maxFix checks fixes 0).1.length := by omega
          rw [List.get?_append hjlt] at hj1
          exact (fixLoop_no_merge maxFix pr checks fixes 0).1 (List.get?_mem hj1)
      · have : ((fixLoop maxFix checks fixes 0).1 ++ [LoopEvent.mergedPR pr]).get? k =
            some (LoopEvent.awaitedChecks true) := by
          rw [List.get?_append hklt]
          exact hk
        simpa using this

/-- C6 (witness): the gating theorem applied to a one-poll passing run. -/
theorem claimC6_witness :
    (iterate 7 3 [.create "f" []] [⟨true, none⟩] []).get? 2 =
      some (LoopEvent.mergedPR 7) ∧
    ∃ i, i < 2 ∧ (iterate 7 3 [.create "f" []] [⟨true, none⟩] []).get? i =
      some (LoopEvent.awaitedChecks true) :=
  ⟨by decide, claimC6_mergeGated 7 3 [.create "f" []] [⟨true, none⟩] [] 2 (by decide)⟩

end Loop

namespace Gen

/-- C7: for every model id and every token usage (cache reads and writes
included), the batch-submitted cost is exactly half of the interactive cost —
here over exact rationals, so the "floating-point tolerance" of the claim is
not even needed. -/
theorem claimC7_batchHalf (model : String) (usage : ApiUsage) :
    computeCost model usage true = 0.5 * computeCost model usage false := by
  simp [computeCost]
  ring

end Gen

namespace Api

/-- C8: for every configuration, each phase in `THINKING_PHASES`
({planner, builder, fixer, reflect}) gets thinking enabled with
`budget_tokens = min(configured, maxTokens − 2048)` and
`max_tokens = maxTokens + budget`; the memory phase gets no thinking and
`max_tokens` equal to its configured `maxTokens`. -/
theorem claimC8_thinking (cfg : LlmConfig) :
    (∀ phase ∈ THINKING_PHASES,
      buildParams cfg phase =
        { max_tokens := (cfg.phases phase).maxTokens +
            min cfg.thinkingBudget ((cfg.phases phase).maxTokens - MIN_OUTPUT_TOKENS),
          thinking := some (min cfg.thinkingBudget
            ((cfg.phases phase).maxTokens - MIN_OUTPUT_TOKENS)) }) ∧
    buildParams cfg .memory =
      { max_tokens := (cfg.phases .memory).maxTokens, thinking := none } := by
  constructor
  · intro phase hph
    fin_cases hph <;> rfl
  · rfl

/-- C8 (witness): the thinking-budget rule at a concrete configuration with
`maxTokens = 8192` and a configured budget of 10000 (clamped to 6144). -/
theorem claimC8_witness :
    Phase.planner ∈ THINKING_PHASES ∧
    buildParams ⟨fun _ => ⟨"m", 8192⟩, 10000⟩ Phase.planner =
      { max_tokens := 8192 + 6144, thinking := some 6144 } ∧
    buildParams ⟨fun _ => ⟨"m", 8192⟩, 10000⟩ Phase.memory =
      { max_tokens := 8192, thinking := none } :=
  ⟨by decide,
   by
     have h := (claimC8_thinking ⟨fun _ => ⟨"m", 8192⟩, 10000⟩).1 Phase.planner (by decide)
     rw [h]
     decide,
   by
     have h := (claimC8_thinking ⟨fun _ => ⟨"m", 8192⟩, 10000⟩).2
     rw [h]⟩

theorem find?_filter_of_imp {α : Type} (p q : α → Bool)
    (himp : ∀ x, p x = true → q x = true) :
    ∀ l : List α, (l.filter q).find? p = l.find? p
  | [] => rfl
  | a :: l => by
    by_cases hq : q a
    · rw [List.filter_cons_of_pos hq]
      by_cases hp : p a
      · rw [List.find?_cons_of_pos _ hp, List.find?_cons_of_pos _ hp]
      · rw [List.find?_cons_of_neg _ hp, List.find?_cons_of_neg _ hp]
        exact find?_filter_of_imp p q himp l
    · rw [List.filter_cons_of_neg hq]
      have hp : ¬p a = true := fun hpa => hq (himp a hpa)
      rw [List.find?_cons_of_neg _ hp]
      exact find?_filter_of_imp p q himp l

theorem blockType_filter_signature (b : ContentBlock) :
    blockType (b.filter (fun p => p.1 ≠ "signature")) = blockType b := by
  unfold blockType
  rw [find?_filter_of_imp]
  intro x hx
  simp only [decide_eq_true_eq] at hx
  simp [hx]

/-- C10: signature stripping is frame-exact: blocks whose type is not
`thinking` pass through completely unchanged (any `signature` field
included), and on `thinking` blocks exactly the `signature` fields are
removed — every other field is preserved (and so is the block's type). -/
theorem claimC10_stripFrame (content : List ContentBlock) :
    (stripThinkingSignatures content).length = content.length ∧
    ∀ i block, content.get? i = some block →
      (blockType block ≠ some "thinking" →
        (stripThinkingSignatures content).get? i = some block) ∧
      (blockType block = some "thinking" →
        ∃ b2, (stripThinkingSignatures content).get? i = some b2 ∧
          (∀ p ∈ b2, p.1 ≠ "signature") ∧
          (∀ p : String × String, p.1 ≠ "signature" → (p ∈ b2 ↔ p ∈ block)) ∧
          blockType b2 = blockType block) := by
  constructor
  · simp [stripThinkingSignatures]
  · intro i block hib
    have hmap : (stripThinkingSignatures content).get? i =
        (content.get? i).map (fun block =>
          if blockType block = some "thinking" then
            block.filter (fun p => p.1 ≠ "signature")
          else block) := by
      simp [stripThinkingSignatures, List.get?_map]
    constructor
    · intro hnt
      rw [hmap, hib]
      simp [if_neg hnt]
    · intro ht
      refine ⟨block.filter (fun p => p.1 ≠ "signature"), ?_, ?_, ?_, ?_⟩
      · rw [hmap, hib]
        simp [if_pos ht]
      · intro p hp
        have := List.of_mem_filter hp
        simpa using this
      · intro p hsig
        rw [List.mem_filter]
        simp [hsig]
      · exact blockType_filter_signature block

/-- C10 (witness): the frame condition at a concrete response: one thinking
block (signature dropped, other fields kept) and one text block carrying a
`signature` field (returned untouched). -/
theorem claimC10_witness :
    ([[("type", "thinking"), ("thinking", "t"), ("signature", "s")],
      [("type", "text"), ("text", "x"), ("signature", "keep")]] :
        List ContentBlock).get? 1 =
      some [("type", "text"), ("text", "x"), ("signature", "keep")] ∧
    ((blockType [("type", "text"), ("text", "x"), ("signature", "keep")] ≠
        some "thinking" →
      (stripThinkingSignatures
          [[("type", "thinking"), ("thinking", "t"), ("signature", "s")],
           [("type", "text"), ("text", "x"), ("signature", "keep")]]).get? 1 =
        some [("type", "text"), ("text", "x"), ("signature", "keep")]) ∧
     (blockType [("type", "text"), ("text", "x"), ("signature", "keep")] =
        some "thinking" →
      ∃ b2, (stripThinkingSignatures
          [[("type", "thinking"), ("thinking", "t"), ("signature", "s")],
           [("type", "text"), ("text", "x"), ("signature", "keep")]]).get? 1 =
          some b2 ∧
        (∀ p ∈ b2, p.1 ≠ "signature") ∧
        (∀ p : String × String, p.1 ≠ "signature" →
          (p ∈ b2 ↔ p ∈ ([("type", "text"), ("text", "x"), ("signature", "keep")] :
            ContentBlock))) ∧
        blockType b2 =
          blockType [("type", "text"), ("text", "x"), ("signature", "keep")])) :=
  ⟨by decide,
   (claimC10_stripFrame
      [[("type", "thinking"), ("thinking", "t"), ("signature", "s")],
       [("type", "text"), ("text", "x"), ("signature", "keep")]]).2 1
     [("type", "text"), ("text", "x"), ("signature", "keep")] (by decide)⟩

end Api

namespace Rx

theorem lexLiteralPattern_cons_plain {c : Char} (hbs : c ≠ '\\')
    (hc : c ∉ REGEX_SPECIALS) (E : List Char) :
    lexLiteralPattern (c :: E) = (lexLiteralPattern E).map (c :: ·) := by
  cases E with
  | nil =>
    simp only [lexLiteralPattern]
    rw [if_neg hbs, if_neg (by simpa using hc)]
  | cons d E2 =>
    simp only [lexLiteralPattern]
    rw [if_neg hbs, if_neg (by simpa using hc)]

theorem lexLiteralPattern_cons_escaped {c : Char} (hc : c ∈ REGEX_SPECIALS)
    (E : List Char) :
    lexLiteralPattern ('\\' :: c :: E) = (lexLiteralPattern E).map (c :: ·) := by
  simp only [lexLiteralPattern]
  rw [if_pos trivial, if_pos (show REGEX_SPECIALS.contains c = true by simpa using hc)]

/-- Escaping then lexing is the identity: the escaped query is always a valid
pure-literal pattern denoting the query itself. -/
theorem lex_escape (q : List Char) :
    lexLiteralPattern (escapeRegexChars q) = some q := by
  induction q with
  | nil => rfl
  | cons c rest ih =>
    by_cases hc : c ∈ REGEX_SPECIALS
    · have h : escapeRegexChars (c :: rest) = '\\' :: c :: escapeRegexChars rest := by
        simp [escapeRegexChars, hc]
      rw [h, lexLiteralPattern_cons_escaped hc, ih]
      rfl
    · have hbs : c ≠ '\\' := by
        intro he
        subst he
        exact hc (by decide)
      have h : escapeRegexChars (c :: rest) = c :: escapeRegexChars rest := by
        simp [escapeRegexChars, hc]
      rw [h, lexLiteralPattern_cons_plain hbs hc, ih]
      rfl

/-- C9: the regex fallback of `recall` escapes every ECMAScript regex syntax
character, so the constructed pattern is a well-formed literal regex (it never
throws) and testing it is exactly a case-insensitive literal substring match
over `summary` and `content`. -/
theorem claimC9_recallEscape (query summary content : List Char) :
    lexLiteralPattern (escapeRegexChars query) = some query ∧
    recallFallbackMatches query summary content =
      some (Js.containsSub (Js.lowerText summary) (Js.lowerText query) ||
        Js.containsSub (Js.lowerText content) (Js.lowerText query)) := by
  have h := lex_escape query
  refine ⟨h, ?_⟩
  simp [recallFallbackMatches, regexTestLiteral, h]

end Rx

end SeedGPT
